import Mathlib

/-!
Shallow embedding of `src/idgen.cpp` and verification of its specification.

The file embeds two C++ classes:

* `SeqIdGenerator` — a single atomic `uint64_t` counter `m_id`, initialised
  to 0; `next()` is `return m_id++;` (atomic fetch-and-add).
* `IdGenerator` — an atomic `uint64_t` counter `m_id` plus a FIFO queue
  `m_free_queue` of released ids guarded by a mutex; `next()` pops the front
  of the queue when non-empty and otherwise returns `m_id++`; `put(id)`
  pushes `id` at the back of the queue.

Machine integers are represented as `Nat` with explicit reduction modulo
`2 ^ 64` exactly where the C++ `uint64_t` increment can wrap.  The mutex
serialises the operations, so the sequential (linearised) behaviour is a
pure state-transition function on the record below.
-/

/-- The size of the `uint64_t` identifier domain. -/
def U64 : Nat := 2 ^ 64

/-- Embedding of the C++ class `SeqIdGenerator`: the single member
`std::atomic<id_t> m_id`, a `uint64_t` counter. -/
structure SeqIdGenerator where
  m_id : Nat
deriving DecidableEq

/-- The default constructor `SeqIdGenerator() : m_id(0)`. -/
def SeqIdGenerator.init : SeqIdGenerator := ⟨0⟩

/-- `SeqIdGenerator::next`: `return m_id++;` — returns the pre-increment
counter value and increments the `uint64_t` counter (wrapping mod `2^64`). -/
def SeqIdGenerator.next (g : SeqIdGenerator) : Nat × SeqIdGenerator :=
  (g.m_id, ⟨(g.m_id + 1) % U64⟩)

/-- `n` successive `SeqIdGenerator::next` calls: the list of returned ids in
call order, together with the final state. -/
def SeqIdGenerator.nextN (g : SeqIdGenerator) : Nat → List Nat × SeqIdGenerator
  | 0 => ([], g)
  | Nat.succ n =>
    let p := g.next
    let q := p.2.nextN n
    (p.1 :: q.1, q.2)

/-- Embedding of the C++ class `IdGenerator`: the counter
`std::atomic<id_t> m_id` and the released-ids queue
`std::queue<id_t> m_free_queue` (head of the list = front of the queue).
The mutex `m_lock` only serialises access and has no sequential content. -/
structure IdGenerator where
  m_id : Nat
  m_free_queue : List Nat
deriving DecidableEq

/-- The default constructor `IdGenerator() : m_id(0)` (the queue starts
empty). -/
def IdGenerator.init : IdGenerator := ⟨0, []⟩

/-- `IdGenerator::next`: if `m_free_queue` is non-empty, pop and return its
front; otherwise `return m_id++;`. -/
def IdGenerator.next (g : IdGenerator) : Nat × IdGenerator :=
  match g.m_free_queue with
  | i :: rest => (i, { g with m_free_queue := rest })
  | [] => (g.m_id, { g with m_id := (g.m_id + 1) % U64 })

/-- `IdGenerator::put`: `m_free_queue.push(id)` — append the released id at
the back of the queue. -/
def IdGenerator.put (g : IdGenerator) (i : Nat) : IdGenerator :=
  { g with m_free_queue := g.m_free_queue ++ [i] }

/-- `n` successive `IdGenerator::next` calls with no intervening `put`:
the list of returned ids in call order, together with the final state. -/
def IdGenerator.nextN (g : IdGenerator) : Nat → List Nat × IdGenerator
  | 0 => ([], g)
  | Nat.succ n =>
    let p := g.next
    let q := p.2.nextN n
    (p.1 :: q.1, q.2)

/-- A linearised operation on an `IdGenerator`: one `next()` call or one
`put(id)` call.  The mutex and the atomic counter make every concurrent
history equivalent to some interleaving, i.e. to a list of these. -/
inductive Op where
  | next : Op
  | put : Nat → Op
deriving DecidableEq

/-- A run configuration: the generator state plus the list of currently live
ids (returned by `next()` and not yet released), in issue order. -/
structure RunState where
  gen : IdGenerator
  live : List Nat
deriving DecidableEq

/-- The run configuration of a fresh (default-constructed) `IdGenerator`
with no live ids. -/
def initRun : RunState := ⟨IdGenerator.init, []⟩

/-- One operation of the linearised execution: `next()` appends its returned
id to the live list; `put(i)` releases one live occurrence of `i`. -/
def stepOp (s : RunState) : Op → RunState
  | Op.next => ⟨(s.gen.next).2, s.live ++ [(s.gen.next).1]⟩
  | Op.put i => ⟨s.gen.put i, s.live.erase i⟩

/-- Execute a list of operations from a configuration. -/
def runOps (s : RunState) : List Op → RunState
  | [] => s
  | op :: ops => runOps (stepOp s op) ops

/-- The caller contract of `IdGenerator::put` along a trace: every released
id is live at the moment of its release (it was returned by `next()` and has
not been released since that return). -/
def legalOps (s : RunState) : List Op → Bool
  | [] => true
  | Op.next :: ops => legalOps (stepOp s Op.next) ops
  | Op.put i :: ops =>
    if i ∈ s.live then legalOps (stepOp s (Op.put i)) ops else false

/-- The number of `next()` calls in a list of operations. -/
def countNext : List Op → Nat
  | [] => 0
  | Op.next :: ops => countNext ops + 1
  | Op.put _ :: ops => countNext ops

/-- Inductive invariant of legal runs: the live ids and the queued free ids,
taken together, are pairwise distinct and all lie below the counter. -/
def TraceInv (s : RunState) : Prop :=
  (s.live ++ s.gen.m_free_queue).Nodup ∧
  ∀ x ∈ s.live ++ s.gen.m_free_queue, x < s.gen.m_id

/-- Outputs of `n` successive `SeqIdGenerator::next` calls from counter value
`s < 2^64`: the `i`-th returned id is `(s + i) % 2^64`. -/
theorem SeqIdGenerator_nextN_out (n : Nat) : ∀ s : Nat, s < U64 →
    ((SeqIdGenerator.mk s).nextN n).1 =
      (List.range n).map (fun i => (s + i) % U64) := by
  induction n with
  | zero => intro s _; rfl
  | succ n ih =>
    intro s hs
    have hU : 0 < U64 := by norm_num [U64]
    have hrec := ih ((s + 1) % U64) (Nat.mod_lt _ hU)
    show s :: ((SeqIdGenerator.mk ((s + 1) % U64)).nextN n).1 = _
    rw [hrec, List.range_succ_eq_map, List.map_cons, List.map_map]
    congr 1
    · exact (Nat.mod_eq_of_lt hs).symm
    · refine List.map_congr_left ?_
      intro i _
      show ((s + 1) % U64 + i) % U64 = (s + Nat.succ i) % U64
      rw [Nat.mod_add_mod]
      congr 1
      omega

/-- From a fresh `SeqIdGenerator`, as long as the `uint64_t` counter cannot
wrap (`n ≤ 2^64` calls), the returned ids are `0, 1, …, n-1` in order. -/
theorem SeqIdGenerator_init_out (n : Nat) (hn : n ≤ U64) :
    (SeqIdGenerator.init.nextN n).1 = List.range n := by
  show ((SeqIdGenerator.mk 0).nextN n).1 = List.range n
  rw [SeqIdGenerator_nextN_out n 0 (by norm_num [U64])]
  refine (List.map_congr_left ?_).trans (List.map_id _)
  intro i hi
  show (0 + i) % U64 = i
  rw [Nat.zero_add]
  exact Nat.mod_eq_of_lt (Nat.lt_of_lt_of_le (List.mem_range.mp hi) hn)

/-- C1: for every `IdGenerator` state, `next()` pops and returns the head of
the free queue (oldest released id, FIFO) leaving the counter unchanged when
the queue is non-empty, and otherwise returns the counter and increments it
by one (`uint64_t` increment, i.e. modulo `2^64`). -/
theorem IdGenerator_next_spec (g : IdGenerator) :
    (∀ i rest, g.m_free_queue = i :: rest →
      g.next = (i, IdGenerator.mk g.m_id rest)) ∧
    (g.m_free_queue = [] →
      g.next = (g.m_id, IdGenerator.mk ((g.m_id + 1) % U64) [])) := by
  obtain ⟨c, q⟩ := g
  constructor
  · rintro i rest rfl
    rfl
  · rintro rfl
    rfl

/-- Witness for C1 at the concrete states `⟨5, [7, 9]⟩` and `⟨5, []⟩`. -/
theorem IdGenerator_next_spec_witness :
    (IdGenerator.mk 5 [7, 9]).next = (7, IdGenerator.mk 5 [9]) ∧
    (IdGenerator.mk 5 []).next = (5, IdGenerator.mk 6 []) := by
  refine ⟨(IdGenerator_next_spec (IdGenerator.mk 5 [7, 9])).1 7 [9] rfl, ?_⟩
  have h := (IdGenerator_next_spec (IdGenerator.mk 5 [])).2 rfl
  rw [h]
  decide

/-- C2: `SeqIdGenerator::next` returns the current counter value and
increments the counter by one (fetch-and-add on the `uint64_t` counter),
with no other effect, and the first call on a default-constructed generator
returns 0. -/
theorem SeqIdGenerator_next_spec :
    (∀ g : SeqIdGenerator,
      g.next = (g.m_id, SeqIdGenerator.mk ((g.m_id + 1) % U64))) ∧
    SeqIdGenerator.init.next.1 = 0 :=
  ⟨fun _ => rfl, rfl⟩

/-- C7: `IdGenerator::put` appends the released id at the tail of the free
queue, preserving the previously enqueued elements in order ahead of it, and
leaves the counter unchanged. -/
theorem IdGenerator_put_spec (g : IdGenerator) (i : Nat) :
    (g.put i).m_free_queue = g.m_free_queue ++ [i] ∧
    (g.put i).m_id = g.m_id :=
  ⟨rfl, rfl⟩

/-- C9: on any state with an empty free queue, `put(i)` followed by `next()`
returns `i` (no validation is performed, so this holds for arbitrary ids)
and restores the original state: the queue is empty again and the counter is
unchanged. -/
theorem IdGenerator_put_next_roundtrip (g : IdGenerator) (i : Nat)
    (h : g.m_free_queue = []) :
    (g.put i).next = (i, g) := by
  obtain ⟨c, q⟩ := g
  cases h
  rfl

/-- Witness for C9 at the concrete state `⟨42, []⟩` with id 7. -/
theorem IdGenerator_put_next_roundtrip_witness :
    (IdGenerator.mk 42 []).m_free_queue = [] ∧
    ((IdGenerator.mk 42 []).put 7).next = (7, IdGenerator.mk 42 []) :=
  ⟨rfl, IdGenerator_put_next_roundtrip (IdGenerator.mk 42 []) 7 rfl⟩

/-- C10: both generators are deterministic at the sequential interface —
each operation, run twice from equal states, returns equal results and
leaves equal states. -/
theorem generators_deterministic (g₁ g₂ : SeqIdGenerator)
    (r₁ r₂ : IdGenerator) (i : Nat) (hg : g₁ = g₂) (hr : r₁ = r₂) :
    g₁.next = g₂.next ∧ r₁.next = r₂.next ∧ r₁.put i = r₂.put i := by
  cases hg
  cases hr
  exact ⟨rfl, rfl, rfl⟩

/-- Witness for C10 at concrete equal states. -/
theorem generators_deterministic_witness :
    SeqIdGenerator.init.next = SeqIdGenerator.init.next ∧
    IdGenerator.init.next = IdGenerator.init.next ∧
    IdGenerator.init.put 3 = IdGenerator.init.put 3 :=
  generators_deterministic SeqIdGenerator.init SeqIdGenerator.init
    IdGenerator.init IdGenerator.init 3 rfl rfl

/-- C3: from any `IdGenerator` state whose free queue holds exactly `K`
released ids, `K` successive `next()` calls with no intervening `put()`
return exactly those ids, in the order they were released (FIFO). -/
theorem IdGenerator_drain_fifo (g : IdGenerator) :
    (g.nextN g.m_free_queue.length).1 = g.m_free_queue := by
  obtain ⟨c, l⟩ := g
  induction l with
  | nil => rfl
  | cons h t ih =>
    show h :: ((IdGenerator.mk c t).nextN t.length).1 = h :: t
    rw [ih]

/-- C5: `n < 2^64` calls of `next()` on a fresh `SeqIdGenerator` with no
`put()` (the class has none) return `n` pairwise-distinct values forming
exactly the set `{0, …, n-1}`. -/
theorem SeqIdGenerator_first_n (n : Nat) (hn : n < U64) :
    ((SeqIdGenerator.init.nextN n).1).length = n ∧
    ((SeqIdGenerator.init.nextN n).1).Nodup ∧
    (∀ x, x ∈ (SeqIdGenerator.init.nextN n).1 ↔ x < n) := by
  rw [SeqIdGenerator_init_out n hn.le]
  exact ⟨by simp, List.nodup_range n, fun x => List.mem_range⟩

/-- Witness for C5 at `n = 3`. -/
theorem SeqIdGenerator_first_n_witness :
    3 < U64 ∧
    (((SeqIdGenerator.init.nextN 3).1).length = 3 ∧
     ((SeqIdGenerator.init.nextN 3).1).Nodup ∧
     (∀ x, x ∈ (SeqIdGenerator.init.nextN 3).1 ↔ x < 3)) :=
  ⟨by norm_num [U64], SeqIdGenerator_first_n 3 (by norm_num [U64])⟩

/-- C6: for fewer than `2^64` total `SeqIdGenerator::next` calls, the
subsequence of returned values observed by any single caller, in call order,
is strictly increasing. -/
theorem SeqIdGenerator_per_thread_increasing (n : Nat) (l : List Nat)
    (hn : n < U64) (hl : l.Sublist (SeqIdGenerator.init.nextN n).1) :
    l.Pairwise (· < ·) := by
  rw [SeqIdGenerator_init_out n hn.le] at hl
  exact List.Pairwise.sublist hl (List.pairwise_lt_range n)

/-- Witness for C6: the subsequence `[0, 2, 3]` of the first four returned
ids is strictly increasing. -/
theorem SeqIdGenerator_per_thread_increasing_witness :
    4 < U64 ∧ [0, 2, 3].Sublist (SeqIdGenerator.init.nextN 4).1 ∧
    ([0, 2, 3] : List Nat).Pairwise (· < ·) := by
  have hs : [0, 2, 3].Sublist (SeqIdGenerator.init.nextN 4).1 := by
    rw [SeqIdGenerator_init_out 4 (by norm_num [U64])]
    decide
  exact ⟨by norm_num [U64], hs,
    SeqIdGenerator_per_thread_increasing 4 [0, 2, 3] (by norm_num [U64]) hs⟩

/-- C8: the `SeqIdGenerator` counter is exact unsigned 64-bit arithmetic —
the increment is addition modulo `2^64`, the first `2^64` calls return
pairwise-distinct values, and the `2^64 + 1`-st call returns 0 again, the
value of the very first call (wraparound only after `2^64` calls). -/
theorem SeqIdGenerator_u64_wraparound :
    (∀ g : SeqIdGenerator, (g.next).2.m_id = (g.m_id + 1) % U64) ∧
    ((SeqIdGenerator.init.nextN U64).1).Nodup ∧
    (SeqIdGenerator.init.nextN (U64 + 1)).1 =
      (SeqIdGenerator.init.nextN U64).1 ++ [0] ∧
    (SeqIdGenerator.init.next).1 = 0 := by
  refine ⟨fun _ => rfl, ?_, ?_, rfl⟩
  · rw [SeqIdGenerator_init_out U64 le_rfl]
    exact List.nodup_range U64
  · have hmap : (List.range U64).map (fun i => (0 + i) % U64) = List.range U64 := by
      refine (List.map_congr_left ?_).trans (List.map_id _)
      intro i hi
      show (0 + i) % U64 = i
      rw [Nat.zero_add]
      exact Nat.mod_eq_of_lt (List.mem_range.mp hi)
    show ((SeqIdGenerator.mk 0).nextN (U64 + 1)).1 = _
    rw [SeqIdGenerator_nextN_out (U64 + 1) 0 (by norm_num [U64]),
      SeqIdGenerator_init_out U64 le_rfl, List.range_succ, List.map_append, hmap,
      List.map_singleton, Nat.zero_add, Nat.mod_self]

/-- The first `2^64` sequential outputs reduced mod `2^64` are themselves. -/
theorem map_mod_range_self :
    (List.range U64).map (fun i => (0 + i) % U64) = List.range U64 := by
  refine (List.map_congr_left ?_).trans (List.map_id _)
  intro i hi
  show (0 + i) % U64 = i
  rw [Nat.zero_add]
  exact Nat.mod_eq_of_lt (List.mem_range.mp hi)

/-- Outputs of `n` successive `IdGenerator::next` calls from a state with an
empty free queue and counter `c < 2^64`: the `i`-th returned id is
`(c + i) % 2^64`, exactly as for `SeqIdGenerator`. -/
theorem IdGenerator_nextN_out_empty (n : Nat) : ∀ c : Nat, c < U64 →
    ((IdGenerator.mk c []).nextN n).1 =
      (List.range n).map (fun i => (c + i) % U64) := by
  induction n with
  | zero => intro c _; rfl
  | succ n ih =>
    intro c hc
    have hU : 0 < U64 := by norm_num [U64]
    have hrec := ih ((c + 1) % U64) (Nat.mod_lt _ hU)
    show c :: ((IdGenerator.mk ((c + 1) % U64) []).nextN n).1 = _
    rw [hrec, List.range_succ_eq_map, List.map_cons, List.map_map]
    congr 1
    · exact (Nat.mod_eq_of_lt hc).symm
    · refine List.map_congr_left ?_
      intro i _
      show ((c + 1) % U64 + i) % U64 = (c + Nat.succ i) % U64
      rw [Nat.mod_add_mod]
      congr 1
      omega

/-- Running `n` bare `next()` operations appends the `nextN` outputs to the
live list and advances the generator to the `nextN` final state. -/
theorem runOps_replicate_next (n : Nat) : ∀ (g : IdGenerator) (live : List Nat),
    runOps ⟨g, live⟩ (List.replicate n Op.next) =
      ⟨(g.nextN n).2, live ++ (g.nextN n).1⟩ := by
  induction n with
  | zero =>
    intro g live
    show (⟨g, live⟩ : RunState) = ⟨g, live ++ []⟩
    rw [List.append_nil]
  | succ n ih =>
    intro g live
    show runOps ⟨(g.next).2, live ++ [(g.next).1]⟩ (List.replicate n Op.next) = _
    rw [ih (g.next).2 (live ++ [(g.next).1]), List.append_assoc]
    exact rfl

/-- A trace of bare `next()` operations satisfies the caller contract. -/
theorem legalOps_replicate_next (n : Nat) : ∀ s : RunState,
    legalOps s (List.replicate n Op.next) = true := by
  induction n with
  | zero => intro s; rfl
  | succ n ih => intro s; exact ih (stepOp s Op.next)

/-- The caller contract is preserved by truncating a trace. -/
theorem legalOps_take (ops : List Op) : ∀ (s : RunState) (k : Nat),
    legalOps s ops = true → legalOps s (ops.take k) = true := by
  induction ops with
  | nil => intro s k _; rw [List.take_nil]; rfl
  | cons op ops ih =>
    intro s k h
    cases k with
    | zero => rfl
    | succ k =>
      cases op with
      | next => exact ih (stepOp s Op.next) k h
      | put i =>
        simp only [legalOps] at h
        by_cases hc : i ∈ s.live
        · rw [if_pos hc] at h
          rw [List.take_succ_cons]
          simp only [legalOps]
          rw [if_pos hc]
          exact ih (stepOp s (Op.put i)) k h
        · rw [if_neg hc] at h
          cases h

/-- Truncating a trace cannot increase its number of `next()` calls. -/
theorem countNext_take_le (ops : List Op) : ∀ k : Nat,
    countNext (ops.take k) ≤ countNext ops := by
  induction ops with
  | nil => intro k; rw [List.take_nil]
  | cons op ops ih =>
    intro k
    cases k with
    | zero => exact Nat.zero_le _
    | succ k =>
      cases op with
      | next => exact Nat.succ_le_succ (ih k)
      | put i => exact Nat.le_trans (ih k) (Nat.le_refl _)

/-- The invariant `TraceInv` is preserved by any legal trace whose `next()` calls
cannot wrap the `uint64_t` counter. -/
theorem runOps_inv (ops : List Op) : ∀ s : RunState,
    TraceInv s → s.gen.m_id + countNext ops < U64 → legalOps s ops = true →
    TraceInv (runOps s ops) := by
  induction ops with
  | nil => intro s h _ _; exact h
  | cons op ops ih =>
    intro s hInv hcnt hleg
    obtain ⟨⟨c, q⟩, live⟩ := s
    have h1 : (live ++ q).Nodup := hInv.1
    have h2 : ∀ x ∈ live ++ q, x < c := hInv.2
    cases op with
    | next =>
      have hcnt' : c + (countNext ops + 1) < U64 := hcnt
      have hleg' : legalOps (stepOp ⟨⟨c, q⟩, live⟩ Op.next) ops = true := hleg
      cases q with
      | cons hd t =>
        refine ih (stepOp ⟨⟨c, hd :: t⟩, live⟩ Op.next) ⟨?_, ?_⟩ ?_ hleg'
        · show ((live ++ [hd]) ++ t).Nodup
          rw [List.append_assoc, List.singleton_append]
          exact h1
        · intro x hx
          have hx' : x ∈ (live ++ [hd]) ++ t := hx
          show x < c
          rw [List.append_assoc, List.singleton_append] at hx'
          exact h2 x hx'
        · show c + countNext ops < U64
          omega
      | nil =>
        have hc1 : (c + 1) % U64 = c + 1 := Nat.mod_eq_of_lt (by omega)
        simp only [List.append_nil] at h1 h2
        refine ih (stepOp ⟨⟨c, []⟩, live⟩ Op.next) ⟨?_, ?_⟩ ?_ hleg'
        · show ((live ++ [c]) ++ []).Nodup
          rw [List.append_nil]
          refine h1.append (List.nodup_singleton c) ?_
          intro x hx hx'
          rw [List.mem_singleton] at hx'
          subst hx'
          exact absurd (h2 _ hx) (lt_irrefl _)
        · intro x hx
          have hx' : x ∈ (live ++ [c]) ++ [] := hx
          show x < (c + 1) % U64
          rw [hc1]
          rw [List.append_nil, List.mem_append, List.mem_singleton] at hx'
          rcases hx' with hx' | rfl
          · exact Nat.lt_succ_of_lt (h2 x hx')
          · exact Nat.lt_succ_self x
        · show (c + 1) % U64 + countNext ops < U64
          rw [hc1]
          omega
    | put i =>
      have hcnt' : c + countNext ops < U64 := hcnt
      have hleg' :
          (if i ∈ live then legalOps (stepOp ⟨⟨c, q⟩, live⟩ (Op.put i)) ops
           else false) = true := hleg
      by_cases hmem : i ∈ live
      · rw [if_pos hmem] at hleg'
        have p1 : ((live.erase i ++ q) ++ [i]).Perm (i :: (live.erase i ++ q)) :=
          List.perm_append_comm
        have p2 : (i :: (live.erase i ++ q)).Perm (live ++ q) :=
          ((List.perm_cons_erase hmem).append_right q).symm
        have e1 : live.erase i ++ (q ++ [i]) = (live.erase i ++ q) ++ [i] :=
          (List.append_assoc _ _ _).symm
        have hperm : (live.erase i ++ (q ++ [i])).Perm (live ++ q) := by
          rw [e1]
          exact p1.trans p2
        refine ih (stepOp ⟨⟨c, q⟩, live⟩ (Op.put i)) ⟨?_, ?_⟩ ?_ hleg'
        · show (live.erase i ++ (q ++ [i])).Nodup
          exact hperm.nodup_iff.mpr h1
        · intro x hx
          have hx' : x ∈ live.erase i ++ (q ++ [i]) := hx
          show x < c
          exact h2 x (hperm.subset hx')
        · show c + countNext ops < U64
          omega
      · rw [if_neg hmem] at hleg'
        cases hleg'

/-- C4 (amended): along every trace of `next()`/`put()` operations on a
fresh `IdGenerator` that satisfies the caller contract of `put` and makes
fewer than `2^64` `next()` calls, the live ids are pairwise distinct at
every point — no id is returned by two `next()` calls without an
intervening `put()` of it. -/
theorem IdGenerator_trace_live_nodup (ops : List Op) (k : Nat)
    (hcnt : countNext ops < U64) (hleg : legalOps initRun ops = true) :
    ((runOps initRun (ops.take k)).live).Nodup := by
  have hInv : TraceInv (runOps initRun (ops.take k)) := by
    refine runOps_inv (ops.take k) initRun ⟨List.nodup_nil, ?_⟩ ?_ ?_
    · intro x hx
      cases hx
    · show 0 + countNext (ops.take k) < U64
      have := countNext_take_le ops k
      omega
    · exact legalOps_take ops initRun k hleg
  exact List.Nodup.of_append_left hInv.1

/-- Witness for C4 on the legal trace `next, next, put 0, next` observed in
full: the reissued id 0 joins the live set only after its release. -/
theorem IdGenerator_trace_live_nodup_witness :
    countNext [Op.next, Op.next, Op.put 0, Op.next] < U64 ∧
    legalOps initRun [Op.next, Op.next, Op.put 0, Op.next] = true ∧
    ((runOps initRun ([Op.next, Op.next, Op.put 0, Op.next].take 4)).live).Nodup :=
  ⟨by decide, by decide,
    IdGenerator_trace_live_nodup [Op.next, Op.next, Op.put 0, Op.next] 4
      (by decide) (by decide)⟩

/-- C4 counterexample: the trace of `2^64 + 1` bare `next()` calls on a
fresh `IdGenerator` satisfies the caller contract vacuously (it contains no
`put`), yet after it the live ids are not pairwise distinct: the counter
wraps, so the last call returns 0 again, already returned by the first call
with no intervening `put(0)`. -/
theorem IdGenerator_trace_live_dup_after_wrap :
    legalOps initRun (List.replicate (U64 + 1) Op.next) = true ∧
    ¬ ((runOps initRun (List.replicate (U64 + 1) Op.next)).live).Nodup := by
  have hlive : (runOps initRun (List.replicate (U64 + 1) Op.next)).live
      = List.range U64 ++ [0] := by
    show (runOps ⟨IdGenerator.init, []⟩ (List.replicate (U64 + 1) Op.next)).live = _
    rw [runOps_replicate_next (U64 + 1) IdGenerator.init []]
    show [] ++ (IdGenerator.init.nextN (U64 + 1)).1 = _
    rw [List.nil_append]
    show ((IdGenerator.mk 0 []).nextN (U64 + 1)).1 = _
    rw [IdGenerator_nextN_out_empty (U64 + 1) 0 (by norm_num [U64]),
      List.range_succ, List.map_append, map_mod_range_self, List.map_singleton,
      Nat.zero_add, Nat.mod_self]
  refine ⟨legalOps_replicate_next (U64 + 1) initRun, ?_⟩
  rw [hlive, List.nodup_append]
  intro hnd
  exact hnd.2.2 (List.mem_range.mpr (by norm_num [U64]))
    (List.mem_singleton.mpr rfl)
